import Mathlib

/-!
Verification of the engine-driving accuracy pipeline of the chess-bench
repository (src/go/benchmark.go).  The Go program is shallowly embedded:

* machine `float64` arithmetic on probabilities/accuracies is modelled by
  exact rational arithmetic (`ℚ`); all specified values (0.5, 100, permille
  fractions) are exactly representable,
* Go strings are modelled as `List Char` (the protocol is ASCII),
* the engine subprocess's stdout is modelled as the list of lines that can
  be read from it before the pipe closes (end of list = read error / EOF),
* `int` is modelled as `Int` with the 64-bit range check of `strconv.Atoi`
  made explicit.
-/

/-- Accuracy scorer, from `calcAccuracy` in benchmark.go:
if `after >= before` return 100; otherwise `acc := 100*(1-(before-after)*2)`,
floored at 0. -/
def calcAccuracy (before after : ℚ) : ℚ :=
  if before ≤ after then 100
  else
    let acc : ℚ := 100 * (1 - (before - after) * 2)
    if acc < 0 then 0 else acc

/-- Win-probability scorer, from `wdlToProb` in benchmark.go: if the side to
move is not White, swap the win/loss components; then `(w + d*0.5)/1000`. -/
def wdlToProb (w d l : Int) (isWhite : Bool) : ℚ :=
  if isWhite then ((w : ℚ) + (d : ℚ) * (1 / 2)) / 1000
  else ((l : ℚ) + (d : ℚ) * (1 / 2)) / 1000

/-- Per-side aggregation in `analyzeGame` of benchmark.go: sum the side's
accuracy list and divide by its length when it is non-empty, otherwise keep
the initial value `0.0`. -/
def sideMean (xs : List ℚ) : ℚ :=
  if 0 < xs.length then xs.sum / (xs.length : ℚ) else 0

/-- The marker scanned for by `analyze` in benchmark.go (`strings.Index(line, " wdl ")`). -/
def wdlPat : List Char := (" wdl ").toList

/-- The token terminating one evaluation (`strings.HasPrefix(line, "bestmove")`). -/
def bestmoveTok : List Char := ("bestmove").toList

/-- Suffix of `s` after the first occurrence of `pat`, or `none` when `pat`
does not occur.  Models `strings.Index(line, pat)` followed by
`line[idx+len(pat):]`. -/
def afterFirst (pat : List Char) : List Char → Option (List Char)
  | [] => if pat = [] then some [] else none
  | c :: cs =>
    if pat.isPrefixOf (c :: cs) then some ((c :: cs).drop pat.length)
    else afterFirst pat cs

/-- Worker for `splitN`: `rem` is the number of pieces still allowed, `cur`
the (reversed) characters of the current piece. -/
def splitNGo : Nat → List Char → List Char → List (List Char)
  | _, cur, [] => [cur.reverse]
  | rem, cur, c :: cs =>
    if c = ' ' ∧ 2 ≤ rem then cur.reverse :: splitNGo (rem - 1) [] cs
    else splitNGo rem (c :: cur) cs

/-- Models Go `strings.SplitN(s, " ", n)`: split around each space into at
most `n` substrings, the last one being the unsplit remainder. -/
def splitN (n : Nat) (s : List Char) : List (List Char) :=
  if n = 0 then [] else splitNGo n [] s

/-- Decimal value of a digit run, accumulating left to right; `none` as soon
as a non-digit character appears.  Models the digit loop of `strconv.Atoi`. -/
def digitsValGo (acc : Nat) : List Char → Option Nat
  | [] => some acc
  | c :: cs =>
    if c.isDigit then digitsValGo (acc * 10 + (c.toNat - 48)) cs else none

/-- Digit-run value of a non-empty all-digit string, `none` otherwise. -/
def digitsVal (s : List Char) : Option Nat :=
  if s = [] then none else digitsValGo 0 s

/-- Models Go `strconv.Atoi`: optional sign, then a non-empty digit run,
range-checked to a 64-bit `int`; any other shape is an error (`none`). -/
def atoi (s : List Char) : Option Int :=
  match s with
  | [] => none
  | c :: cs =>
    if c = '-' then
      (digitsVal cs).bind fun n =>
        if n ≤ 9223372036854775808 then some (-(n : Int)) else none
    else if c = '+' then
      (digitsVal cs).bind fun n =>
        if n ≤ 9223372036854775807 then some ((n : Int)) else none
    else
      (digitsVal s).bind fun n =>
        if n ≤ 9223372036854775807 then some ((n : Int)) else none

/-- One line of the `analyze` loop body of benchmark.go: when the line
contains the marker, take the rest after it, `SplitN` it into at most 4
fields, and when at least 3 fields are present update each of the three
components whose field parses, keeping the held value for the others. -/
def parseWDLLine (line : List Char) (st : Int × Int × Int) : Int × Int × Int :=
  match afterFirst wdlPat line with
  | none => st
  | some rest =>
    let parts := splitN 4 rest
    if 3 ≤ parts.length then
      ((atoi (parts.getD 0 [])).getD st.1,
       (atoi (parts.getD 1 [])).getD st.2.1,
       (atoi (parts.getD 2 [])).getD st.2.2)
    else st

/-- The read loop of `analyze` in benchmark.go: process each line (WDL
parsing happens before the best-move check, exactly as in the source), stop
after the first line with the `bestmove` prefix, or at EOF. -/
def analyzeLoop : List (List Char) → Int × Int × Int → Int × Int × Int
  | [], st => st
  | line :: rest, st =>
    let st2 := parseWDLLine line st
    if bestmoveTok.isPrefixOf line then st2 else analyzeLoop rest st2

/-- `analyze` of benchmark.go as a function of the subprocess's output
lines: start from the default (333, 334, 333) and run the read loop. -/
def analyze (lines : List (List Char)) : Int × Int × Int :=
  analyzeLoop lines (333, 334, 333)

/-- A line bears the WDL marker (the condition `strings.Index(line, " wdl ") != -1`). -/
def hasMarker (line : List Char) : Bool :=
  (afterFirst wdlPat line).isSome

/-- The triple a line yields when its first three fields after the marker all
parse; `none` when the line has no marker, fewer than 3 fields, or any of the
three fields fails `Atoi`.  Used to state which lines are fully WDL-bearing. -/
def wdlParse3 (line : List Char) : Option (Int × Int × Int) :=
  match afterFirst wdlPat line with
  | none => none
  | some rest =>
    let parts := splitN 4 rest
    if 3 ≤ parts.length then
      match atoi (parts.getD 0 []), atoi (parts.getD 1 []), atoi (parts.getD 2 []) with
      | some w, some d, some l => some (w, d, l)
      | _, _, _ => none
    else none

/-- Token awaited during the handshake (`strings.Contains(line, "uciok")`). -/
def uciokTok : List Char := ("uciok").toList

/-- Token awaited by the readiness probe (`strings.Contains(line, "readyok")`). -/
def readyokTok : List Char := ("readyok").toList

/-- Go `strings.Contains(line, tok)`: the token occurs somewhere in the line. -/
def containsTok (line tok : List Char) : Bool :=
  (afterFirst tok line).isSome

/-- The `waitForReady` loop of benchmark.go: read lines, returning as soon as
a read error occurs (end of the modelled line list) or the line contains the
token.  The value is the part of the stream left unread. -/
def waitForReady (tok : List Char) : List (List Char) → List (List Char)
  | [] => []
  | line :: rest =>
    if containsTok line tok then rest else waitForReady tok rest

/-- The `NewStockfishEngine` constructor of benchmark.go as a function of
whether the subprocess could be spawned (`cmd.Start()` succeeding) and of the
stdout line stream: a spawn failure is the only path returning an error; the
handshake then waits for `uciok` and, after the option commands, for
`readyok`.  The `ok` payload is the still-unread part of the stream (standing
for the live session). -/
def NewStockfishEngine (spawnOk : Bool) (stdoutLines : List (List Char)) :
    Except Unit (List (List Char)) :=
  if spawnOk then
    Except.ok (waitForReady readyokTok (waitForReady uciokTok stdoutLines))
  else Except.error ()

/-- Models Go `strings.ToLower`: map the character-wise lowercase conversion
over the string (usernames in the chess.com data are ASCII). -/
def toLowerStr (s : String) : String :=
  ⟨s.data.map Char.toLower⟩

/-- A game record as consumed by `analyzeGame` in benchmark.go: the PGN text
and the optional white/black player blocks (each reduced to its username,
`none` modelling a nil `*PlayerData`). -/
structure GameData where
  pgn : String
  white : Option String
  black : Option String

/-- The tuple returned by `analyzeGame` in benchmark.go (white mean accuracy,
black mean accuracy, scored move count, lowercased usernames, success flag),
extended with `sessions`, an instrumentation counter of how many times the
Engine Session constructor was invoked on this path. -/
structure AnalyzeResult where
  wa : ℚ
  ba : ℚ
  moves : Nat
  white : String
  black : String
  ok : Bool
  sessions : Nat

/-- The absent result `(0, 0, 0, "", "", false)` of benchmark.go. -/
def absentResult : AnalyzeResult :=
  ⟨0, 0, 0, "", "", false, 0⟩

/-- The external chess-rules library (notnil/chess) at the interface
`analyzeGame` uses it: an initial position, the side to move of a position
(`true` = White), move application (`none` = the move does not apply; the Go
`Game.Move` then returns an error and leaves the position unchanged), and
PGN decoding into a move list (`none` = `chess.PGN` returns an error). -/
structure ChessAdapter (P M : Type) where
  initPos : P
  turn : P → Bool
  applyMove : P → M → Option P
  parsePGN : String → Option (List M)

/-- The per-move loop of `analyzeGame` in benchmark.go: for each move,
remember the side to move, apply the move (the returned error is ignored in
the source, so a failing move leaves the position unchanged), evaluate the
resulting position, score the move relative to the mover's side, and append
to that side's accuracy list.  `eval` models `engine.analyze` on a position. -/
def runMoves {P M : Type} (A : ChessAdapter P M) (eval : P → Int × Int × Int) :
    List M → P → Int × Int × Int → List ℚ × List ℚ
  | [], _, _ => ([], [])
  | m :: ms, pos, prev =>
    let isWhite := A.turn pos
    let pos2 := (A.applyMove pos m).getD pos
    let cur := eval pos2
    let acc := calcAccuracy (wdlToProb prev.1 prev.2.1 prev.2.2 isWhite)
      (wdlToProb cur.1 cur.2.1 cur.2.2 isWhite)
    let rest := runMoves A eval ms pos2 cur
    if isWhite then (acc :: rest.1, rest.2) else (rest.1, acc :: rest.2)

/-- `analyzeGame` of benchmark.go: reject on empty PGN, then on neither
lowercased username matching the lowercased target, then on PGN decode
failure, then on an empty move list; then start one Engine Session
(`engineOk` models its constructor succeeding), seed the previous WDL from
the initial position, run the per-move loop, and aggregate with `sideMean`. -/
def analyzeGame {P M : Type} (A : ChessAdapter P M) (eval : P → Int × Int × Int)
    (engineOk : Bool) (g : GameData) (username : String) : AnalyzeResult :=
  if g.pgn = "" then absentResult
  else
    let white := (g.white.map toLowerStr).getD ""
    let black := (g.black.map toLowerStr).getD ""
    let target := toLowerStr username
    if white ≠ target ∧ black ≠ target then absentResult
    else
      match A.parsePGN g.pgn with
      | none => absentResult
      | some moves =>
        if moves.length = 0 then absentResult
        else if engineOk then
          let prev := eval A.initPos
          let r := runMoves A eval moves A.initPos prev
          ⟨sideMean r.1, sideMean r.2, r.1.length + r.2.length, white, black, true, 1⟩
        else { absentResult with sessions := 1 }

/-- Legality of a move list along the path it generates: each move applies to
the position reached by the ones before it. -/
def AllLegal {P M : Type} (A : ChessAdapter P M) : P → List M → Prop
  | _, [] => True
  | pos, m :: ms => ∃ p2, A.applyMove pos m = some p2 ∧ AllLegal A p2 ms

/-- Status of one game's goroutine in the batch scheduler of benchmark.go:
still blocked on the semaphore send, holding a semaphore slot (its Engine
Session may be live), or finished (slot released). -/
inductive TaskStatus where
  | waiting
  | running
  | done
deriving DecidableEq, Repr

/-- Number of goroutines currently holding a semaphore slot (each of which
owns one live Engine Session). -/
def runningCount : List TaskStatus → Nat
  | [] => 0
  | TaskStatus.running :: ts => runningCount ts + 1
  | _ :: ts => runningCount ts

/-- One scheduler transition with concurrency limit `workers`: a waiting
goroutine's send on the buffered semaphore channel completes when the channel
is not full (fewer than `workers` holders), or a running goroutine finishes
and releases its slot. -/
inductive SchedStep (workers : Nat) : List TaskStatus → List TaskStatus → Prop
  | acquire (l r : List TaskStatus) :
      runningCount (l ++ TaskStatus.waiting :: r) < workers →
      SchedStep workers (l ++ TaskStatus.waiting :: r) (l ++ TaskStatus.running :: r)
  | finish (l r : List TaskStatus) :
      SchedStep workers (l ++ TaskStatus.running :: r) (l ++ TaskStatus.done :: r)

/-- Initial scheduler state: `main` spawns one goroutine per fetched game,
each immediately blocked on the semaphore send. -/
def initSched (n : Nat) : List TaskStatus :=
  List.replicate n TaskStatus.waiting

/-- States the batch scheduler can reach from `n` spawned game goroutines. -/
def SchedReachable (workers n : Nat) (ts : List TaskStatus) : Prop :=
  Relation.ReflTransGen (SchedStep workers) (initSched n) ts

/-- Trivial concrete instantiation of the chess-library interface, used to
evaluate theorems about the early-rejection paths on concrete inputs. -/
def unitAdapter : ChessAdapter Unit Unit :=
  ⟨(), fun _ => true, fun _ _ => some (), fun _ => some [()]⟩

/-- Concrete instantiation whose position is just the side to move (White
first, flipped by every legal move) and whose PGN decoder yields four
half-moves; used to evaluate the aggregation theorem on a concrete game. -/
def fourMoveAdapter : ChessAdapter Bool Unit :=
  ⟨true, fun p => p, fun p _ => some (!p), fun _ => some [(), (), (), ()]⟩

/-- Concrete instantiation whose positions count applied moves (White to move
on even counts) and whose moves are flagged legal/illegal; its PGN decoder
yields a 3-move list whose second move is illegal.  Used to exhibit the
behaviour of the per-move loop on a move that fails to apply. -/
def illegalMoveAdapter : ChessAdapter Nat Bool :=
  ⟨0, fun p => p % 2 == 0, fun p m => if m then some (p + 1) else none,
   fun _ => some [true, false, true]⟩


/-- C2: `calcAccuracy` returns 100 when the probability does not decrease,
otherwise `max 0 (100 * (1 - 2 * drop))`; in particular it is 100 on equal
probabilities and 0 once the drop reaches 1/2. -/
theorem calcAccuracy_spec (b a : ℚ) :
    (b ≤ a → calcAccuracy b a = 100) ∧
    (a < b → calcAccuracy b a = max 0 (100 * (1 - 2 * (b - a)))) ∧
    calcAccuracy a a = 100 ∧
    (1 / 2 ≤ b - a → calcAccuracy b a = 0) := by
  refine ⟨fun h => by simp [calcAccuracy, h], fun h => ?_, by simp [calcAccuracy], fun h => ?_⟩
  · have hb : ¬ b ≤ a := not_le.mpr h
    simp only [calcAccuracy, if_neg hb]
    by_cases h2 : (100 : ℚ) * (1 - (b - a) * 2) < 0
    · rw [if_pos h2]
      exact (max_eq_left (by linarith)).symm
    · push_neg at h2
      rw [if_neg (not_lt.mpr h2), max_eq_right (by linarith)]
      ring
  · have hb : ¬ b ≤ a := not_le.mpr (by linarith)
    simp only [calcAccuracy, if_neg hb]
    have h2 : (100 : ℚ) * (1 - (b - a) * 2) ≤ 0 := by nlinarith
    split_ifs with h3
    · rfl
    · linarith

/-- Closed instance of `calcAccuracy_spec`: a drop of 0.6 scores 0, and a
drop of 0.1 scores by the linear-penalty formula. -/
theorem calcAccuracy_spec_witness :
    ((1 : ℚ) / 2 ≤ 9 / 10 - 3 / 10 ∧ calcAccuracy (9 / 10) (3 / 10) = 0) ∧
    ((1 : ℚ) / 2 < 3 / 5 ∧
      calcAccuracy (3 / 5) (1 / 2) = max 0 (100 * (1 - 2 * (3 / 5 - 1 / 2)))) :=
  ⟨⟨by norm_num, (calcAccuracy_spec (9 / 10) (3 / 10)).2.2.2 (by norm_num)⟩,
   ⟨by norm_num, (calcAccuracy_spec (3 / 5) (1 / 2)).2.1 (by norm_num)⟩⟩

/-- C3: `wdlToProb` is `(w + d/2)/1000` for White and, after swapping the
win/loss components, `(l + d/2)/1000` for Black; on (1000,0,0) White gets 1,
on (0,0,1000) White gets 0, and on (0,1000,0) either side gets 1/2. -/
theorem wdlToProb_spec (w d l : Int) :
    wdlToProb w d l true = ((w : ℚ) + (d : ℚ) / 2) / 1000 ∧
    wdlToProb w d l false = ((l : ℚ) + (d : ℚ) / 2) / 1000 ∧
    wdlToProb 1000 0 0 true = 1 ∧
    wdlToProb 0 0 1000 true = 0 ∧
    (∀ s : Bool, wdlToProb 0 1000 0 s = 1 / 2) := by
  refine ⟨by simp [wdlToProb]; ring, by simp [wdlToProb]; ring,
    by norm_num [wdlToProb], by norm_num [wdlToProb], fun s => ?_⟩
  cases s <;> norm_num [wdlToProb]

/-- C10: for a WDL triple summing to 1000, the White and Black win
probabilities are complementary. -/
theorem wdlToProb_complementary (w d l : Int) (h : w + d + l = 1000) :
    wdlToProb w d l true + wdlToProb w d l false = 1 := by
  have h2 : (w : ℚ) + (d : ℚ) + (l : ℚ) = 1000 := by exact_mod_cast h
  simp only [wdlToProb, if_true, Bool.false_eq_true, if_false]
  rw [div_add_div_same, div_eq_one_iff_eq (by norm_num)]
  linarith

/-- Closed instance of `wdlToProb_complementary` at the default triple. -/
theorem wdlToProb_complementary_witness :
    (333 + 334 + 333 : Int) = 1000 ∧
    wdlToProb 333 334 333 true + wdlToProb 333 334 333 false = 1 :=
  ⟨by norm_num, wdlToProb_complementary 333 334 333 (by norm_num)⟩

theorem parseWDLLine_no_marker (line : List Char) (st : Int × Int × Int)
    (h : hasMarker line = false) : parseWDLLine line st = st := by
  have hn : afterFirst wdlPat line = none := by
    cases hA : afterFirst wdlPat line with
    | none => rfl
    | some r => simp [hasMarker, hA] at h
  simp [parseWDLLine, hn]

theorem wdlParse3_no_marker (line : List Char) (h : hasMarker line = false) :
    wdlParse3 line = none := by
  have hn : afterFirst wdlPat line = none := by
    cases hA : afterFirst wdlPat line with
    | none => rfl
    | some r => simp [hasMarker, hA] at h
  simp [wdlParse3, hn]

theorem parseWDLLine_of_parse3 (line : List Char) (st t : Int × Int × Int)
    (h : wdlParse3 line = some t) : parseWDLLine line st = t := by
  unfold wdlParse3 at h
  unfold parseWDLLine
  cases hA : afterFirst wdlPat line with
  | none => rw [hA] at h; exact absurd h (by simp)
  | some rest =>
    rw [hA] at h
    simp only at h ⊢
    by_cases hl : 3 ≤ (splitN 4 rest).length
    · rw [if_pos hl] at h ⊢
      cases h0 : atoi ((splitN 4 rest).getD 0 []) with
      | none => rw [h0] at h; simp at h
      | some w =>
        cases h1 : atoi ((splitN 4 rest).getD 1 []) with
        | none => rw [h0, h1] at h; simp at h
        | some d =>
          cases h2 : atoi ((splitN 4 rest).getD 2 []) with
          | none => rw [h0, h1, h2] at h; simp at h
          | some l =>
            rw [h0, h1, h2] at h
            simp only [Option.some.injEq] at h
            simp [h0, h1, h2, ← h]
    · rw [if_neg hl] at h
      exact absurd h (by simp)

theorem getLastD_cons {α : Type} (xs : List α) (t st : α) :
    ((t :: xs).getLast?).getD st = (xs.getLast?).getD t := by
  induction xs generalizing t with
  | nil => rfl
  | cons y ys ih =>
    rw [List.getLast?_cons_cons]
    obtain ⟨v, hv⟩ := Option.isSome_iff_exists.mp
      (List.getLast?_isSome.mpr (by simp : (y :: ys) ≠ []))
    rw [hv]
    rfl

theorem analyzeLoop_ends (b : List Char) (hb : bestmoveTok.isPrefixOf b = true)
    (hbm : hasMarker b = false) :
    ∀ (ls : List (List Char)) (st : Int × Int × Int),
      (∀ l ∈ ls, bestmoveTok.isPrefixOf l = false) →
      (∀ l ∈ ls, hasMarker l = true → (wdlParse3 l).isSome = true) →
      analyzeLoop (ls ++ [b]) st = ((ls.filterMap wdlParse3).getLast?).getD st := by
  intro ls
  induction ls with
  | nil =>
    intro st h1 h2
    simp only [List.nil_append, analyzeLoop]
    rw [parseWDLLine_no_marker _ _ hbm, if_pos hb]
    simp
  | cons l ls ih =>
    intro st h1 h2
    have hl1 : bestmoveTok.isPrefixOf l = false := h1 l (by simp)
    simp only [List.cons_append, analyzeLoop, hl1, Bool.false_eq_true, if_false]
    by_cases hm : hasMarker l = true
    · obtain ⟨t, ht⟩ := Option.isSome_iff_exists.mp (h2 l (by simp) hm)
      rw [parseWDLLine_of_parse3 _ _ _ ht, List.filterMap_cons_some ht]
      show analyzeLoop (ls ++ [b]) t =
        ((t :: List.filterMap wdlParse3 ls).getLast?).getD st
      rw [ih t (fun x hx => h1 x (by simp [hx])) (fun x hx => h2 x (by simp [hx]))]
      rw [getLastD_cons]
    · have hm2 : hasMarker l = false := Bool.not_eq_true _ |>.mp hm
      rw [parseWDLLine_no_marker _ _ hm2,
        List.filterMap_cons_none (wdlParse3_no_marker _ hm2)]
      exact ih st (fun x hx => h1 x (by simp [hx])) (fun x hx => h2 x (by simp [hx]))

/-- C1: on a stream of output lines ending at the first line with the
best-move prefix (that line itself carrying no WDL marker, and every
marker-bearing line before it parsing fully), `analyze` returns the triple of
the last WDL-bearing line, or (333, 334, 333) if there was none. -/
theorem analyze_last_wdl (ls : List (List Char)) (b : List Char)
    (h1 : ∀ l ∈ ls, bestmoveTok.isPrefixOf l = false)
    (h2 : ∀ l ∈ ls, hasMarker l = true → (wdlParse3 l).isSome = true)
    (hb : bestmoveTok.isPrefixOf b = true)
    (hbm : hasMarker b = false) :
    analyze (ls ++ [b]) = ((ls.filterMap wdlParse3).getLast?).getD (333, 334, 333) :=
  analyzeLoop_ends b hb hbm ls (333, 334, 333) h1 h2

/-- Closed instance of `analyze_last_wdl`: of two WDL lines before the
best-move line, the second one wins. -/
theorem analyze_last_wdl_witness :
    analyze [("info depth 1 score cp 20 wdl 10 20 970 nodes 50 pv a2a3").toList,
      ("info depth 2 score cp 9 wdl 600 300 100 nodes 90 pv a7a6").toList,
      ("bestmove a2a3 ponder a7a6").toList] = (600, 300, 100) := by
  have h := analyze_last_wdl
    [("info depth 1 score cp 20 wdl 10 20 970 nodes 50 pv a2a3").toList,
      ("info depth 2 score cp 9 wdl 600 300 100 nodes 90 pv a7a6").toList]
    (("bestmove a2a3 ponder a7a6").toList)
    (by decide) (by decide) (by decide) (by decide)
  exact h.trans (by decide)

/-- C9: on any line bearing the WDL marker with at least three fields after
it, the held triple is updated component-wise — a field that fails `Atoi`
keeps the previously held component, a field that parses replaces it — and
the evaluation is never aborted. -/
theorem parseWDLLine_partial (line rest : List Char) (st : Int × Int × Int)
    (hA : afterFirst wdlPat line = some rest)
    (hl : 3 ≤ (splitN 4 rest).length) :
    parseWDLLine line st =
      ((atoi ((splitN 4 rest).getD 0 [])).getD st.1,
       (atoi ((splitN 4 rest).getD 1 [])).getD st.2.1,
       (atoi ((splitN 4 rest).getD 2 [])).getD st.2.2) := by
  simp [parseWDLLine, hA, hl]

/-- Closed instance of `parseWDLLine_partial`: with fields `abc 250 xyz`, the
malformed first and third components keep the held values and the second is
updated. -/
theorem parseWDLLine_partial_witness :
    afterFirst wdlPat (("info wdl abc 250 xyz extra").toList) =
      some (("abc 250 xyz extra").toList) ∧
    3 ≤ (splitN 4 (("abc 250 xyz extra").toList)).length ∧
    parseWDLLine (("info wdl abc 250 xyz extra").toList) (1, 2, 3) = (1, 250, 3) := by
  refine ⟨by decide, by decide, ?_⟩
  have h := parseWDLLine_partial (("info wdl abc 250 xyz extra").toList)
    (("abc 250 xyz extra").toList) (1, 2, 3) (by decide) (by decide)
  exact h.trans (by decide)

/-- C5: `analyzeGame` rejects with an absent result — and without invoking
the Engine Session constructor — when the record's PGN is empty or when
neither lowercased recorded username equals the lowercased target. -/
theorem analyzeGame_early_reject {P M : Type} (A : ChessAdapter P M)
    (eval : P → Int × Int × Int) (engineOk : Bool) (g : GameData) (username : String)
    (h : g.pgn = "" ∨
      ((g.white.map toLowerStr).getD "" ≠ toLowerStr username ∧
       (g.black.map toLowerStr).getD "" ≠ toLowerStr username)) :
    (analyzeGame A eval engineOk g username).ok = false ∧
    (analyzeGame A eval engineOk g username).sessions = 0 := by
  rcases h with h | h
  · simp [analyzeGame, h, absentResult]
  · by_cases hp : g.pgn = ""
    · simp [analyzeGame, hp, absentResult]
    · simp only [analyzeGame, if_neg hp]
      rw [if_pos h]
      simp [absentResult]

/-- Closed instance of `analyzeGame_early_reject`: neither "Alice" nor "Bob"
matches the target "hikaru", so the game is skipped with no session. -/
theorem analyzeGame_early_reject_witness :
    (((GameData.mk "1. e4 e5" (some "Alice") (some "Bob")).white.map
        toLowerStr).getD "" ≠ toLowerStr "hikaru" ∧
     ((GameData.mk "1. e4 e5" (some "Alice") (some "Bob")).black.map
        toLowerStr).getD "" ≠ toLowerStr "hikaru") ∧
    (analyzeGame unitAdapter (fun _ => (333, 334, 333)) true
      (GameData.mk "1. e4 e5" (some "Alice") (some "Bob")) "hikaru").ok = false ∧
    (analyzeGame unitAdapter (fun _ => (333, 334, 333)) true
      (GameData.mk "1. e4 e5" (some "Alice") (some "Bob")) "hikaru").sessions = 0 :=
  ⟨⟨by decide, by decide⟩,
   analyzeGame_early_reject unitAdapter (fun _ => (333, 334, 333)) true
     (GameData.mk "1. e4 e5" (some "Alice") (some "Bob")) "hikaru"
     (Or.inr ⟨by decide, by decide⟩)⟩

/-- Counterexample to C7: with the subprocess spawned but the stdout pipe
closing before any `uciok` line (an empty readable stream), the constructor
returns success, not an engine-startup error. -/
theorem NewStockfishEngine_pipe_close_counterexample :
    NewStockfishEngine true [] = Except.ok [] ∧
    ∀ e : Unit, NewStockfishEngine true [] ≠ Except.error e := by
  exact ⟨rfl, fun e h => by simp [NewStockfishEngine] at h⟩

/-- C7 as amended: the constructor returns an error exactly when the
subprocess cannot be spawned — a pipe closing before the expected token makes
`waitForReady` return silently and the constructor still reports success —
and a constructor failure makes the caller produce an absent result for that
game (the batch skips it). -/
theorem NewStockfishEngine_error_iff_spawn :
    (∀ (spawnOk : Bool) (lines : List (List Char)),
      (NewStockfishEngine spawnOk lines).isOk = spawnOk) ∧
    (∀ (P M : Type) (A : ChessAdapter P M) (eval : P → Int × Int × Int)
      (g : GameData) (username : String),
      (analyzeGame A eval false g username).ok = false) := by
  constructor
  · intro spawnOk lines
    cases spawnOk <;> rfl
  · intro P M A eval g username
    by_cases h1 : g.pgn = ""
    · simp [analyzeGame, h1, absentResult]
    · by_cases h2 : ((g.white.map toLowerStr).getD "" ≠ toLowerStr username ∧
        (g.black.map toLowerStr).getD "" ≠ toLowerStr username)
      · simp [analyzeGame, h1, h2, absentResult]
      · simp only [analyzeGame, if_neg h1, if_neg h2]
        cases hp : A.parsePGN g.pgn with
        | none => rfl
        | some moves =>
          by_cases hm : moves.length = 0 <;> simp [hm, absentResult]

theorem runMoves_total_length {P M : Type} (A : ChessAdapter P M)
    (eval : P → Int × Int × Int) :
    ∀ (ms : List M) (pos : P) (prev : Int × Int × Int),
      ((runMoves A eval ms pos prev).1).length + ((runMoves A eval ms pos prev).2).length
        = ms.length := by
  intro ms
  induction ms with
  | nil => intro pos prev; rfl
  | cons m ms ih =>
    intro pos prev
    have h := ih ((A.applyMove pos m).getD pos) (eval ((A.applyMove pos m).getD pos))
    simp only [runMoves]
    cases hw : A.turn pos <;> simp [hw, List.length_cons] <;> omega

/-- Counterexample to C8: with a decoded 3-move list whose second move is
illegal (it fails to apply), the analyzer does not stop at the failing move —
the loop ignores the application failure and scores all three moves, so the
result records 3 scored moves instead of the 1 accumulated before the
failure. -/
theorem analyzeGame_illegal_counterexample :
    (analyzeGame illegalMoveAdapter
      (fun p => (1000 - 100 * (p : Int), 0, 100 * (p : Int))) true
      (GameData.mk "g" (some "Hikaru") (some "Bob")) "hikaru").moves = 3 ∧
    ¬ (analyzeGame illegalMoveAdapter
      (fun p => (1000 - 100 * (p : Int), 0, 100 * (p : Int))) true
      (GameData.mk "g" (some "Hikaru") (some "Bob")) "hikaru").moves = 1 ∧
    (analyzeGame illegalMoveAdapter
      (fun p => (1000 - 100 * (p : Int), 0, 100 * (p : Int))) true
      (GameData.mk "g" (some "Hikaru") (some "Bob")) "hikaru").ok = true := by
  refine ⟨by decide, by decide, by decide⟩

/-- C8 as amended: a move that is illegal against the current position does
not stop the per-move loop — its application failure is ignored, the position
is left unchanged, and the move is still scored — so every decoded move is
scored and the analyzer returns a successful result with `moves` equal to the
full decoded length, whether or not every move applied. -/
theorem analyzeGame_scores_all_moves {P M : Type} (A : ChessAdapter P M)
    (eval : P → Int × Int × Int) (g : GameData) (username : String) (moves : List M)
    (h1 : g.pgn ≠ "")
    (h2 : ¬((g.white.map toLowerStr).getD "" ≠ toLowerStr username ∧
        (g.black.map toLowerStr).getD "" ≠ toLowerStr username))
    (h3 : A.parsePGN g.pgn = some moves)
    (h4 : moves ≠ []) :
    (analyzeGame A eval true g username).ok = true ∧
    (analyzeGame A eval true g username).moves = moves.length := by
  have h5 : ¬ moves.length = 0 := by simpa [List.length_eq_zero] using h4
  simp only [analyzeGame, if_neg h1, if_neg h2, h3]
  simp only [if_neg h5, if_true]
  exact ⟨trivial, runMoves_total_length A eval moves A.initPos (eval A.initPos)⟩

/-- Closed instance of `analyzeGame_scores_all_moves` at the 3-move list with
an illegal second move: all 3 moves are scored and the result is present. -/
theorem analyzeGame_scores_all_moves_witness :
    ((GameData.mk "g" (some "Hikaru") (some "Bob")).pgn ≠ "" ∧
      illegalMoveAdapter.parsePGN "g" = some [true, false, true]) ∧
    (analyzeGame illegalMoveAdapter (fun p => ((p : Int), 0, 0)) true
      (GameData.mk "g" (some "Hikaru") (some "Bob")) "hikaru").ok = true ∧
    (analyzeGame illegalMoveAdapter (fun p => ((p : Int), 0, 0)) true
      (GameData.mk "g" (some "Hikaru") (some "Bob")) "hikaru").moves =
      ([true, false, true] : List Bool).length :=
  ⟨⟨by decide, by decide⟩,
   analyzeGame_scores_all_moves illegalMoveAdapter (fun p => ((p : Int), 0, 0))
     (GameData.mk "g" (some "Hikaru") (some "Bob")) "hikaru" [true, false, true]
     (by decide) (by decide) (by decide) (by decide)⟩

theorem runMoves_alternating_length {P M : Type} (A : ChessAdapter P M)
    (eval : P → Int × Int × Int)
    (hflip : ∀ p m p2, A.applyMove p m = some p2 → A.turn p2 = !A.turn p) :
    ∀ (ms : List M) (pos : P) (prev : Int × Int × Int), AllLegal A pos ms →
      ((runMoves A eval ms pos prev).1.length =
        (if A.turn pos then (ms.length + 1) / 2 else ms.length / 2)) ∧
      ((runMoves A eval ms pos prev).2.length =
        (if A.turn pos then ms.length / 2 else (ms.length + 1) / 2)) := by
  intro ms
  induction ms with
  | nil =>
    intro pos prev _
    cases A.turn pos <;> simp [runMoves]
  | cons m ms ih =>
    intro pos prev hleg
    obtain ⟨p2, hp2, hrest⟩ := hleg
    have hturn : A.turn p2 = !A.turn pos := hflip pos m p2 hp2
    have hIH := ih p2 (eval p2) hrest
    simp only [runMoves, hp2, Option.getD_some]
    cases hw : A.turn pos with
    | true =>
      rw [hw] at hturn
      rw [hturn] at hIH
      simp only [Bool.not_true, if_false, Bool.false_eq_true] at hIH
      simp only [hw, if_true, List.length_cons]
      constructor
      · rw [hIH.1]
        omega
      · rw [hIH.2]
    | false =>
      rw [hw] at hturn
      rw [hturn] at hIH
      simp only [Bool.not_false, if_true] at hIH
      simp only [hw, Bool.false_eq_true, if_false, List.length_cons]
      constructor
      · rw [hIH.1]
      · rw [hIH.2]
        omega

/-- C6: on a successfully analyzed game (filters passed, PGN decoded,
engine started, every decoded move legal, White to move initially, legal
moves alternating the side to move), each side's reported accuracy is the
`sideMean` of that side's per-move accuracy list (which is 0, not undefined,
on an empty list), the reported move count is the sum of the two lists'
lengths, and the white/black lists have lengths `(n+1)/2` and `n/2` for `n`
decoded half-moves — so a 4-half-move all-legal game yields 2 white entries,
2 black entries, and 4 total moves. -/
theorem analyzeGame_aggregation {P M : Type} (A : ChessAdapter P M)
    (eval : P → Int × Int × Int) (g : GameData) (username : String) (moves : List M)
    (hflip : ∀ p m p2, A.applyMove p m = some p2 → A.turn p2 = !A.turn p)
    (hinit : A.turn A.initPos = true)
    (h1 : g.pgn ≠ "")
    (h2 : ¬((g.white.map toLowerStr).getD "" ≠ toLowerStr username ∧
        (g.black.map toLowerStr).getD "" ≠ toLowerStr username))
    (h3 : A.parsePGN g.pgn = some moves)
    (h4 : moves ≠ [])
    (hleg : AllLegal A A.initPos moves) :
    (analyzeGame A eval true g username).wa =
      sideMean (runMoves A eval moves A.initPos (eval A.initPos)).1 ∧
    (analyzeGame A eval true g username).ba =
      sideMean (runMoves A eval moves A.initPos (eval A.initPos)).2 ∧
    sideMean [] = 0 ∧
    (runMoves A eval moves A.initPos (eval A.initPos)).1.length =
      (moves.length + 1) / 2 ∧
    (runMoves A eval moves A.initPos (eval A.initPos)).2.length =
      moves.length / 2 ∧
    (analyzeGame A eval true g username).moves =
      (runMoves A eval moves A.initPos (eval A.initPos)).1.length +
      (runMoves A eval moves A.initPos (eval A.initPos)).2.length := by
  have h5 : ¬ moves.length = 0 := by simpa [List.length_eq_zero] using h4
  have hlen := runMoves_alternating_length A eval hflip moves A.initPos
    (eval A.initPos) hleg
  rw [hinit] at hlen
  simp only [if_true] at hlen
  simp only [analyzeGame, if_neg h1, if_neg h2, h3, if_neg h5, if_true]
  exact ⟨trivial, trivial, by simp [sideMean], hlen.1, hlen.2, trivial⟩

/-- Closed instance of `analyzeGame_aggregation`: a 4-half-move all-legal
game under a constant engine evaluation scores 2 white and 2 black entries,
4 total moves, and (the probability never dropping) mean accuracy 100 for
both sides. -/
theorem analyzeGame_aggregation_witness :
    (analyzeGame fourMoveAdapter (fun _ => (500, 0, 500)) true
      (GameData.mk "1. d4 d5 2. c4 c6" (some "Hikaru") (some "Bob")) "hikaru").wa
      = 100 ∧
    (analyzeGame fourMoveAdapter (fun _ => (500, 0, 500)) true
      (GameData.mk "1. d4 d5 2. c4 c6" (some "Hikaru") (some "Bob")) "hikaru").ba
      = 100 ∧
    (analyzeGame fourMoveAdapter (fun _ => (500, 0, 500)) true
      (GameData.mk "1. d4 d5 2. c4 c6" (some "Hikaru") (some "Bob")) "hikaru").moves
      = 4 ∧
    (runMoves fourMoveAdapter (fun _ => (500, 0, 500)) [(), (), (), ()] true
      (500, 0, 500)).1.length = 2 ∧
    (runMoves fourMoveAdapter (fun _ => (500, 0, 500)) [(), (), (), ()] true
      (500, 0, 500)).2.length = 2 := by
  have h := analyzeGame_aggregation fourMoveAdapter (fun _ => (500, 0, 500))
    (GameData.mk "1. d4 d5 2. c4 c6" (some "Hikaru") (some "Bob")) "hikaru"
    [(), (), (), ()]
    (by
      intro p m p2 hh
      simp only [fourMoveAdapter, Option.some.injEq] at hh
      simp [fourMoveAdapter, ← hh])
    rfl (by decide) (by decide) (by decide) (by decide)
    (by simp [AllLegal, fourMoveAdapter])
  exact ⟨h.1.trans (by norm_num [runMoves, fourMoveAdapter, calcAccuracy,
      wdlToProb, sideMean]),
    h.2.1.trans (by norm_num [runMoves, fourMoveAdapter, calcAccuracy,
      wdlToProb, sideMean]),
    (h.2.2.2.2.2).trans (by decide), (h.2.2.2.1).trans (by decide),
    (h.2.2.2.2.1).trans (by decide)⟩

theorem runningCount_append (l r : List TaskStatus) :
    runningCount (l ++ r) = runningCount l + runningCount r := by
  induction l with
  | nil => simp [runningCount]
  | cons t ts ih =>
    cases t <;> simp [runningCount, ih] <;> omega

theorem runningCount_replicate_waiting (n : Nat) :
    runningCount (List.replicate n TaskStatus.waiting) = 0 := by
  induction n with
  | zero => rfl
  | succ n ih => simpa [List.replicate_succ, runningCount] using ih

theorem running_mem_of_pos (ts : List TaskStatus) (h : 0 < runningCount ts) :
    TaskStatus.running ∈ ts := by
  induction ts with
  | nil => simp [runningCount] at h
  | cons t ts ih =>
    cases t with
    | running => exact List.mem_cons_self _ _
    | waiting =>
      exact List.mem_cons_of_mem _ (ih (by simpa [runningCount] using h))
    | done =>
      exact List.mem_cons_of_mem _ (ih (by simpa [runningCount] using h))

theorem schedReachable_bound (w n : Nat) :
    ∀ ts, SchedReachable w n ts → runningCount ts ≤ w := by
  intro ts h
  unfold SchedReachable at h
  induction h with
  | refl => simp [initSched, runningCount_replicate_waiting]
  | tail hsteps hstep ih =>
    cases hstep with
    | acquire l r hlt =>
      rw [runningCount_append] at hlt ih ⊢
      simp only [runningCount] at hlt ih ⊢
      omega
    | finish l r =>
      rw [runningCount_append] at ih ⊢
      simp only [runningCount] at ih ⊢
      omega

theorem schedTrace_done (w : Nat) (hw : 1 ≤ w) :
    ∀ (m k : Nat), Relation.ReflTransGen (SchedStep w)
      (List.replicate k TaskStatus.done ++ List.replicate m TaskStatus.waiting)
      (List.replicate (k + m) TaskStatus.done) := by
  intro m
  induction m with
  | zero =>
    intro k
    simp only [List.replicate_zero, List.append_nil, Nat.add_zero]
    exact Relation.ReflTransGen.refl
  | succ m ih =>
    intro k
    have hc : runningCount (List.replicate k TaskStatus.done ++
        TaskStatus.waiting :: List.replicate m TaskStatus.waiting) < w := by
      rw [runningCount_append]
      have h1 : runningCount (List.replicate k TaskStatus.done) = 0 := by
        induction k with
        | zero => rfl
        | succ k ihk => simpa [List.replicate_succ, runningCount] using ihk
      simp only [h1, runningCount, runningCount_replicate_waiting]
      omega
    have s1 : SchedStep w
        (List.replicate k TaskStatus.done ++
          TaskStatus.waiting :: List.replicate m TaskStatus.waiting)
        (List.replicate k TaskStatus.done ++
          TaskStatus.running :: List.replicate m TaskStatus.waiting) :=
      SchedStep.acquire _ _ hc
    have s2 : SchedStep w
        (List.replicate k TaskStatus.done ++
          TaskStatus.running :: List.replicate m TaskStatus.waiting)
        (List.replicate k TaskStatus.done ++
          TaskStatus.done :: List.replicate m TaskStatus.waiting) :=
      SchedStep.finish _ _
    have heq : List.replicate k TaskStatus.done ++
        TaskStatus.done :: List.replicate m TaskStatus.waiting =
        List.replicate (k + 1) TaskStatus.done ++
          List.replicate m TaskStatus.waiting := by
      rw [List.replicate_succ']
      simp
    have h3 := ih (k + 1)
    rw [← heq] at h3
    have hrepl : List.replicate (k + 1 + m) TaskStatus.done =
        List.replicate (k + (m + 1)) TaskStatus.done :=
      congrArg (fun i => List.replicate i TaskStatus.done) (by omega)
    rw [hrepl] at h3
    exact Relation.ReflTransGen.head s1 (Relation.ReflTransGen.head s2 h3)

theorem schedStep_src_mem {w : Nat} {ts ts2 : List TaskStatus}
    (h : SchedStep w ts ts2) :
    TaskStatus.waiting ∈ ts ∨ TaskStatus.running ∈ ts := by
  cases h with
  | acquire l r _ => exact Or.inl (by simp)
  | finish l r => exact Or.inr (by simp)

/-- C4: in every state the batch scheduler can reach, at most `workers`
game-analysis goroutines hold a semaphore slot (and hence at most `workers`
Engine Sessions are live); moreover, for a positive limit, the scheduler can
drive every spawned game to completion, and any reachable state from which no
transition is possible has every game already analyzed — so all games in the
list are eventually submitted for analysis. -/
theorem scheduler_bounded_complete (w n : Nat) :
    (∀ ts, SchedReachable w n ts → runningCount ts ≤ w) ∧
    (1 ≤ w → Relation.ReflTransGen (SchedStep w) (initSched n)
      (List.replicate n TaskStatus.done)) ∧
    (1 ≤ w → ∀ ts, (∀ ts2, ¬ SchedStep w ts ts2) →
      ∀ t ∈ ts, t = TaskStatus.done) := by
  refine ⟨schedReachable_bound w n, fun hw => ?_, fun hw ts hstuck t ht => ?_⟩
  · have h := schedTrace_done w hw n 0
    simpa [initSched] using h
  · obtain ⟨l, r, rfl⟩ := List.append_of_mem ht
    cases t with
    | done => rfl
    | running => exact absurd (SchedStep.finish l r) (hstuck _)
    | waiting =>
      by_cases hlt : runningCount (l ++ TaskStatus.waiting :: r) < w
      · exact absurd (SchedStep.acquire l r hlt) (hstuck _)
      · push_neg at hlt
        have hpos : 0 < runningCount (l ++ TaskStatus.waiting :: r) :=
          Nat.lt_of_lt_of_le hw hlt
        obtain ⟨l2, r2, heq⟩ :=
          List.append_of_mem (running_mem_of_pos _ hpos)
        exact absurd (by rw [heq]; exact SchedStep.finish l2 r2) (hstuck _)

/-- Closed instance of `scheduler_bounded_complete` at limit 1 and 2 games:
the reachable state with the first game running respects the bound, the
whole batch can run to completion, and the stuck all-done state has every
game analyzed. -/
theorem scheduler_bounded_complete_witness :
    runningCount [TaskStatus.running, TaskStatus.waiting] ≤ 1 ∧
    Relation.ReflTransGen (SchedStep 1) (initSched 2)
      (List.replicate 2 TaskStatus.done) ∧
    (∀ t ∈ [TaskStatus.done, TaskStatus.done], t = TaskStatus.done) := by
  have h := scheduler_bounded_complete 1 2
  refine ⟨h.1 [TaskStatus.running, TaskStatus.waiting]
    (Relation.ReflTransGen.single
      (SchedStep.acquire [] [TaskStatus.waiting] (by decide))),
    h.2.1 (by norm_num), ?_⟩
  intro t ht
  refine h.2.2 (by norm_num) [TaskStatus.done, TaskStatus.done]
    (fun ts2 hstep => ?_) t ht
  rcases schedStep_src_mem hstep with hmem | hmem <;> simp at hmem
